import Mathlib

/-!
Verification of the smolcar block indexer core (src/db.rs, src/main.rs).

The durable engine (SQLite via rusqlite) is modelled as its guaranteed
semantics: the blocks table is a list of rows kept in ascending
block_number order (INTEGER PRIMARY KEY b-tree), INSERT OR REPLACE
replaces the row with an equal key, SELECT ... ORDER BY block_number
DESC LIMIT n enumerates the matching rows in descending key order
truncated to n.  Serde serialization is external; it is modelled by an
abstract pair of functions, an encoder from StoredBlock into an opaque
payload type and a decoder back, decode failure being the source of the
FromSqlConversionFailure error of get_block.  Rendering of extrinsic
parameters and event fields (format of subxt value trees) is opaque and
modelled as the already-rendered strings the feed hands over.
-/

namespace Smolcar

/-- db.rs: EventFilter, pallet plus optional method; a method of none
means exclude all events from this pallet. -/
structure EventFilter where
  pallet : String
  method : Option String
deriving Repr, DecidableEq

/-- main.rs: EventInfo, the projected record of one event. -/
structure EventInfo where
  pallet : String
  variant : String
  data : String
deriving Repr, DecidableEq

/-- main.rs: ExtrinsicInfo, the projected record of one extrinsic with
its retained events. -/
structure ExtrinsicInfo where
  index : Nat
  hash : String
  action : String
  params : String
  events : List EventInfo
deriving Repr, DecidableEq

/-- main.rs: BlockInfo, the shared latest-block view. -/
structure BlockInfo where
  number : Nat
  hash : String
  extrinsics_count : Nat
  events_count : Nat
  extrinsics : List ExtrinsicInfo
deriving Repr, DecidableEq

/-- db.rs: StoredBlock.  In the source the extrinsics field holds
serde_json values obtained faithfully from ExtrinsicInfo; here it keeps
the structured form. -/
structure StoredBlock where
  number : Nat
  hash : String
  extrinsics : List ExtrinsicInfo
  timestamp : Int
deriving Repr, DecidableEq

/-- One row of the blocks table: block_number primary key, block_hash,
block_data (the serialized payload, of opaque type), timestamp. -/
structure Row (α : Type) where
  blockNumber : Nat
  blockHash : String
  blockData : α
  timestamp : Int
deriving Repr, DecidableEq

/-- The read-path error of db.rs (FromSqlConversionFailure wrapping a
serde_json error). -/
inductive DbError where
  | decodeFailure
deriving Repr, DecidableEq

/-- db.rs Database.should_include_event: scan event_filters in order;
on a pallet match, method none or equal method excludes, otherwise keep
scanning; default include. -/
def should_include_event (event_filters : List EventFilter)
    (pallet method : String) : Bool :=
  match event_filters with
  | [] => true
  | f :: fs =>
    if f.pallet = pallet then
      match f.method with
      | none => false
      | some m =>
        if m = method then false
        else should_include_event fs pallet method
    else should_include_event fs pallet method

/-- db.rs Database.should_include_extrinsic: membership test of the
action in extrinsic_filters, negated. -/
def should_include_extrinsic (extrinsic_filters : List String)
    (action : String) : Bool :=
  !(extrinsic_filters.contains action)

/-- The row store_block writes for a block (serialize, then bind the
four columns). -/
def rowOf {α : Type} (enc : StoredBlock → α) (b : StoredBlock) : Row α :=
  ⟨b.number, b.hash, enc b, b.timestamp⟩

/-- INSERT into an INTEGER PRIMARY KEY table, OR REPLACE on key
collision: the list is kept in ascending key order, and the row with an
equal key is replaced in place. -/
def insertRow {α : Type} (r : Row α) : List (Row α) → List (Row α)
  | [] => [r]
  | q :: qs =>
    if r.blockNumber < q.blockNumber then r :: q :: qs
    else if r.blockNumber = q.blockNumber then r :: qs
    else q :: insertRow r qs

/-- db.rs Database.store_block: serialize the block and INSERT OR
REPLACE it keyed by its number.  The I/O outcome of conn.execute is
resolved by the caller (see Delivery.writeOk). -/
def store_block {α : Type} (enc : StoredBlock → α)
    (db : List (Row α)) (b : StoredBlock) : List (Row α) :=
  insertRow (rowOf enc b) db

/-- SELECT block_data FROM blocks WHERE block_number = n: first row
with that key. -/
def lookupRow {α : Type} (n : Nat) : List (Row α) → Option (Row α)
  | [] => none
  | q :: qs => if q.blockNumber = n then some q else lookupRow n qs

/-- Number of rows of the table carrying key n. -/
def countKey {α : Type} (n : Nat) (db : List (Row α)) : Nat :=
  (db.filter (fun q => q.blockNumber = n)).length

/-- db.rs Database.get_block: point lookup; none if absent; a
deserialization failure is an error, not an absence. -/
def get_block {α : Type} (dec : α → Option StoredBlock)
    (db : List (Row α)) (n : Nat) : Except DbError (Option StoredBlock) :=
  match lookupRow n db with
  | none => .ok none
  | some q =>
    match dec q.blockData with
    | some b => .ok (some b)
    | none => .error .decodeFailure

/-- db.rs Database.get_latest_block_number: SELECT MAX(block_number),
none on an empty table. -/
def get_latest_block_number {α : Type} (db : List (Row α)) : Option Nat :=
  match db with
  | [] => none
  | r :: rs => some ((rs.map Row.blockNumber).foldl Nat.max r.blockNumber)

/-- db.rs Database.get_blocks_range: rows with key in the closed range,
descending key order, LIMIT applied by the engine before the lenient
decode that silently skips undecodable rows. -/
def get_blocks_range {α : Type} (dec : α → Option StoredBlock)
    (db : List (Row α)) (start stop limit : Nat) : List StoredBlock :=
  (((db.filter
      (fun r => decide (start ≤ r.blockNumber ∧ r.blockNumber ≤ stop))).reverse.take
    limit).filterMap (fun r => dec r.blockData))

/-- One event as delivered by the feed, already name-resolved; the
field rendering is none when field_values fails. -/
structure RawEvent where
  pallet : String
  variant : String
  fieldValues : Option String
deriving Repr, DecidableEq

/-- One extrinsic as delivered: index, hash, metadata resolution
result (pallet and variant names, none on failure), parameter
rendering, and its event stream where none marks an event that failed
to decode. -/
structure RawExtrinsic where
  index : Nat
  hash : String
  meta : Option (String × String)
  fieldValues : Option String
  events : List (Option RawEvent)
deriving Repr, DecidableEq

/-- One finalized block as delivered by the feed. -/
structure RawBlock where
  number : Nat
  hash : String
  extrinsics : List RawExtrinsic
deriving Repr, DecidableEq

/-- main.rs lines 129-132: qualified action from metadata, the literal
unknown when resolution failed. -/
def resolveAction (meta : Option (String × String)) : String :=
  match meta with
  | some pv => pv.1 ++ "/" ++ pv.2
  | none => "unknown"

/-- main.rs lines 150-169: one iteration of the event loop — a decoded
event passing the filter yields an EventInfo with best-effort data
rendering; a filtered event yields nothing. -/
def projectEvent (event_filters : List EventFilter) (evt : RawEvent) :
    Option EventInfo :=
  if should_include_event event_filters evt.pallet evt.variant then
    some ⟨evt.pallet, evt.variant, evt.fieldValues.getD ""⟩
  else none

/-- main.rs lines 150-169: the whole event loop — events that fail to
decode (the Err arm of the iterator) are passed over silently. -/
def projectEvents (event_filters : List EventFilter)
    (evts : List (Option RawEvent)) : List EventInfo :=
  evts.filterMap (fun o => o.bind (projectEvent event_filters))

/-- main.rs lines 126-180: one iteration of the extrinsic loop — an
excluded action skips the extrinsic entirely; otherwise its record is
built with best-effort params and its filtered events. -/
def projectExtrinsic (event_filters : List EventFilter)
    (extrinsic_filters : List String) (ex : RawExtrinsic) :
    Option ExtrinsicInfo :=
  let action := resolveAction ex.meta
  if should_include_extrinsic extrinsic_filters action then
    some ⟨ex.index, ex.hash, action, ex.fieldValues.getD "",
          projectEvents event_filters ex.events⟩
  else none

/-- main.rs lines 124-180: the extrinsic loop over the whole block, in
delivery order. -/
def projectBlock (event_filters : List EventFilter)
    (extrinsic_filters : List String) (exs : List RawExtrinsic) :
    List ExtrinsicInfo :=
  exs.filterMap (projectExtrinsic event_filters extrinsic_filters)

/-- main.rs lines 122, 171: total_events accumulates the length of each
retained extrinsic's filtered event list. -/
def totalEvents (exs : List ExtrinsicInfo) : Nat :=
  (exs.map (fun e => e.events.length)).sum

/-- main.rs lines 194-199: the StoredBlock handed to store_block for a
raw block, stamped with the ingestion wall-clock time. -/
def projectStored (event_filters : List EventFilter)
    (extrinsic_filters : List String) (b : RawBlock) (now : Int) :
    StoredBlock :=
  ⟨b.number, b.hash, projectBlock event_filters extrinsic_filters b.extrinsics,
   now⟩

/-- main.rs lines 186-191: the BlockInfo written into the shared view
for a raw block. -/
def viewOf (event_filters : List EventFilter)
    (extrinsic_filters : List String) (b : RawBlock) : BlockInfo :=
  let exs := projectBlock event_filters extrinsic_filters b.extrinsics
  ⟨b.number, b.hash, exs.length, totalEvents exs, exs⟩

/-- One delivery of the subscription: the raw block, whether the
durable write (serialization plus conn.execute) succeeds, and the
wall-clock timestamp taken at ingestion. -/
structure Delivery where
  block : RawBlock
  writeOk : Bool
  now : Int
deriving Repr, DecidableEq

/-- The state owned by the subscription task: the blocks table and the
shared latest-block view. -/
structure IngestState (α : Type) where
  db : List (Row α)
  view : BlockInfo
deriving Repr, DecidableEq

/-- main.rs lines 99-105: the placeholder view before any block is
ingested. -/
def initialBlockInfo : BlockInfo :=
  ⟨0, "0x0", 0, 0, []⟩

/-- main.rs line 117: the pattern of the dedup check — only Ok(Some)
makes the loop continue to the next block. -/
def dedupHit (e : Except DbError (Option StoredBlock)) : Bool :=
  match e with
  | .ok (some _) => true
  | _ => false

/-- main.rs lines 112-207: the body of the subscription loop for one
delivered block.  A dedup lookup answering Ok(Some) skips the block;
any other answer (absent, or a read error) proceeds.  The view is then
overwritten, and store_block attempted; a write failure is only
reported. -/
def processBlock {α : Type} (enc : StoredBlock → α)
    (dec : α → Option StoredBlock) (event_filters : List EventFilter)
    (extrinsic_filters : List String) (st : IngestState α)
    (d : Delivery) : IngestState α :=
  if dedupHit (get_block dec st.db d.block.number) then st
  else
    let stored := projectStored event_filters extrinsic_filters d.block d.now
    ⟨if d.writeOk then store_block enc st.db stored else st.db,
     viewOf event_filters extrinsic_filters d.block⟩

/-- The subscription loop over a finite sequence of deliveries,
strictly in feed order. -/
def processDeliveries {α : Type} (enc : StoredBlock → α)
    (dec : α → Option StoredBlock) (event_filters : List EventFilter)
    (extrinsic_filters : List String) (st : IngestState α) :
    List Delivery → IngestState α
  | [] => st
  | d :: ds =>
      processDeliveries enc dec event_filters extrinsic_filters
        (processBlock enc dec event_filters extrinsic_filters st d) ds

/-- The first delivery of number n whose durable write succeeds. -/
def firstSuccess (n : Nat) (ds : List Delivery) : Option Delivery :=
  ds.find? (fun d => d.block.number = n && d.writeOk)

/-! Concrete fixtures used to instantiate the theorems on explicit
inputs. -/

/-- A minimal stored record with the given number. -/
def mkStored (n : Nat) : StoredBlock := ⟨n, "0xh", [], 0⟩

/-- A table holding blocks 10 through 20, built by store_block in
order, with the identity serializer. -/
def db10 : List (Row StoredBlock) :=
  ((List.range 11).map (fun i => mkStored (10 + i))).foldl
    (store_block (fun b => b)) []

/-- A table whose middle row is undecodable: the payload type is an
Option, the decoder the identity, and row 6 carries none. -/
def badDb : List (Row (Option StoredBlock)) :=
  [⟨5, "0x5", some (mkStored 5), 0⟩, ⟨6, "0x6", none, 0⟩,
   ⟨7, "0x7", some (mkStored 7), 0⟩]

/-- A single-row table whose only row is undecodable. -/
def badDb1 : List (Row (Option StoredBlock)) := [⟨5, "0x5", none, 0⟩]

/-- The subscription state before any delivery. -/
def st0 : IngestState StoredBlock := ⟨[], initialBlockInfo⟩

/-- A raw block numbered 7 with no extrinsics. -/
def rb7 : RawBlock := ⟨7, "0x7", []⟩

/-- A raw block numbered 5 with one Balances/transfer extrinsic
carrying one event. -/
def rb5a : RawBlock :=
  ⟨5, "0xa", [⟨1, "0xe1", some ("Balances", "transfer"), some "q",
    [some ⟨"Balances", "Transfer", some "amt"⟩]⟩]⟩

/-- A different raw block also numbered 5, as a redelivery with other
content. -/
def rb5b : RawBlock := ⟨5, "0xb", []⟩

/-- Delivery of rb5a with a succeeding write. -/
def dA : Delivery := ⟨rb5a, true, 100⟩

/-- Redelivery of number 5 with different content, write also
succeeding. -/
def dB : Delivery := ⟨rb5b, true, 200⟩

/-- An extrinsic whose action resolves to ParaInherent/enter, with two
events that would pass an empty event filter. -/
def exPara : RawExtrinsic :=
  ⟨0, "0xe0", some ("ParaInherent", "enter"), some "p",
   [some ⟨"S", "s", some "d1"⟩, some ⟨"T", "t", some "d2"⟩]⟩

/-- An extrinsic whose action resolves to Balances/transfer. -/
def exBal : RawExtrinsic :=
  ⟨1, "0xe1", some ("Balances", "transfer"), some "q",
   [some ⟨"Balances", "Transfer", some "amt"⟩]⟩

/-- An extrinsic whose metadata resolution failed. -/
def exUnknown : RawExtrinsic := ⟨2, "0xe2", none, none, []⟩

/-- Executable check that the table's keys are strictly ascending, the
shape every table reachable by store_block from an empty table has. -/
def sortedKeys {α : Type} : List (Row α) → Bool
  | [] => true
  | [_] => true
  | q :: r :: rest => decide (q.blockNumber < r.blockNumber) && sortedKeys (r :: rest)

/-! Helper lemmas about the table model. -/

theorem lookupRow_insertRow_self {α : Type} (r : Row α) (l : List (Row α)) :
    lookupRow r.blockNumber (insertRow r l) = some r := by
  induction l with
  | nil => simp [insertRow, lookupRow]
  | cons q qs ih =>
    by_cases h1 : r.blockNumber < q.blockNumber
    · simp [insertRow, h1, lookupRow]
    · by_cases h2 : r.blockNumber = q.blockNumber
      · simp [insertRow, h1, h2, lookupRow]
      · have hq : ¬ q.blockNumber = r.blockNumber := fun h => h2 h.symm
        simp [insertRow, h1, h2, lookupRow, hq, ih]

theorem lookupRow_insertRow_ne {α : Type} (k : Nat) (r : Row α)
    (l : List (Row α)) (h : k ≠ r.blockNumber) :
    lookupRow k (insertRow r l) = lookupRow k l := by
  induction l with
  | nil => simp [insertRow, lookupRow, Ne.symm h]
  | cons q qs ih =>
    by_cases h1 : r.blockNumber < q.blockNumber
    · simp [insertRow, h1, lookupRow, Ne.symm h]
    · by_cases h2 : r.blockNumber = q.blockNumber
      · have hq : ¬ q.blockNumber = k := by
          rw [← h2]; exact Ne.symm h
        simp [insertRow, h1, h2, lookupRow, Ne.symm h, hq]
      · simp only [insertRow, if_neg h1, if_neg h2]
        by_cases h3 : q.blockNumber = k
        · simp [lookupRow, h3]
        · simp [lookupRow, h3, ih]

theorem countKey_insertRow_ne {α : Type} (k : Nat) (r : Row α)
    (l : List (Row α)) (h : k ≠ r.blockNumber) :
    countKey k (insertRow r l) = countKey k l := by
  induction l with
  | nil => simp [insertRow, countKey, Ne.symm h]
  | cons q qs ih =>
    by_cases h1 : r.blockNumber < q.blockNumber
    · simp [insertRow, h1, countKey, Ne.symm h]
    · by_cases h2 : r.blockNumber = q.blockNumber
      · have hq : ¬ q.blockNumber = k := by
          rw [← h2]; exact Ne.symm h
        simp [insertRow, h1, h2, countKey, Ne.symm h, hq]
      · simp only [insertRow, if_neg h1, if_neg h2]
        simp only [countKey, List.filter_cons] at ih ⊢
        by_cases h3 : q.blockNumber = k
        · simp [h3, ih]
        · simp [h3, ih]

theorem countKey_insertRow_self {α : Type} (r : Row α)
    (l : List (Row α)) (h : countKey r.blockNumber l = 0) :
    countKey r.blockNumber (insertRow r l) = 1 := by
  induction l with
  | nil => simp [insertRow, countKey]
  | cons q qs ih =>
    have hq : ¬ q.blockNumber = r.blockNumber := by
      intro hc
      simp [countKey, hc] at h
    have hqs : countKey r.blockNumber qs = 0 := by
      simpa [countKey, hq] using h
    by_cases h1 : r.blockNumber < q.blockNumber
    · simp only [insertRow, if_pos h1]
      simpa [countKey, List.filter_cons, hq] using hqs
    · by_cases h2 : r.blockNumber = q.blockNumber
      · exact absurd h2.symm hq
      · simpa [insertRow, h1, h2, countKey, hq] using ih hqs

theorem lookupRow_eq_none_iff {α : Type} (k : Nat) (l : List (Row α)) :
    lookupRow k l = none ↔ countKey k l = 0 := by
  induction l with
  | nil => simp [lookupRow, countKey]
  | cons q qs ih =>
    by_cases h : q.blockNumber = k
    · simp [lookupRow, countKey, h]
    · simpa [lookupRow, countKey, h] using ih

theorem insertRow_idem {α : Type} (r : Row α) (l : List (Row α)) :
    insertRow r (insertRow r l) = insertRow r l := by
  induction l with
  | nil => simp [insertRow]
  | cons q qs ih =>
    by_cases h1 : r.blockNumber < q.blockNumber
    · simp [insertRow, h1]
    · by_cases h2 : r.blockNumber = q.blockNumber
      · simp [insertRow, h1, h2]
      · simp [insertRow, h1, h2, ih]

/-! Helper lemmas about the filters. -/

theorem should_include_event_false_iff (fs : List EventFilter)
    (p v : String) :
    should_include_event fs p v = false ↔
      ∃ f ∈ fs, f.pallet = p ∧ (f.method = none ∨ f.method = some v) := by
  induction fs with
  | nil => simp [should_include_event]
  | cons f fs ih =>
    by_cases hp : f.pallet = p
    · cases hm : f.method with
      | none => simp [should_include_event, hp, hm]
      | some m =>
        by_cases hv : m = v
        · simp [should_include_event, hp, hm, hv]
        · simp only [should_include_event, hp, if_true, hm, hv, if_false,
            if_neg hv, List.mem_cons]
          rw [ih]
          constructor
          · intro hh
            obtain ⟨g, hg, hgp⟩ := hh
            exact ⟨g, Or.inr hg, hgp⟩
          · intro hh
            obtain ⟨g, hg, hgp⟩ := hh
            rcases hg with hg | hg
            · subst hg
              rcases hgp.2 with hn | hs
              · rw [hm] at hn; cases hn
              · rw [hm] at hs
                exact absurd (Option.some.inj hs) hv
            · exact ⟨g, hg, hgp⟩
    · simp only [should_include_event, hp, if_false, List.mem_cons]
      rw [ih]
      constructor
      · intro hh
        obtain ⟨g, hg, hgp⟩ := hh
        exact ⟨g, Or.inr hg, hgp⟩
      · intro hh
        obtain ⟨g, hg, hgp⟩ := hh
        rcases hg with hg | hg
        · subst hg; exact absurd hgp.1 hp
        · exact ⟨g, hg, hgp⟩

theorem should_include_extrinsic_true_iff (fs : List String) (a : String) :
    should_include_extrinsic fs a = true ↔ a ∉ fs := by
  simp [should_include_extrinsic]

/-! Helper lemmas about the range scan. -/

theorem chain'_of_sortedKeys {α : Type} :
    ∀ l : List (Row α), sortedKeys l = true →
      List.Chain' (fun a b => a.blockNumber < b.blockNumber) l
  | [], _ => List.chain'_nil
  | [_], _ => by simp
  | q :: r :: rest, h => by
      simp only [sortedKeys, Bool.and_eq_true, decide_eq_true_eq] at h
      exact List.chain'_cons.mpr ⟨h.1, chain'_of_sortedKeys (r :: rest) h.2⟩

theorem range_length_le {α : Type} (dec : α → Option StoredBlock)
    (db : List (Row α)) (lo hi lim : Nat) :
    (get_blocks_range dec db lo hi lim).length ≤ lim := by
  unfold get_blocks_range
  exact le_trans (List.length_filterMap_le _ _) (List.length_take_le _ _)

theorem mem_range_sound {α : Type} (dec : α → Option StoredBlock)
    (db : List (Row α)) (lo hi lim : Nat) (b : StoredBlock)
    (hb : b ∈ get_blocks_range dec db lo hi lim) :
    ∃ r ∈ db, (lo ≤ r.blockNumber ∧ r.blockNumber ≤ hi) ∧
      dec r.blockData = some b := by
  unfold get_blocks_range at hb
  obtain ⟨r, hr, hdec⟩ := List.mem_filterMap.mp hb
  have hr2 := List.mem_of_mem_take hr
  rw [List.mem_reverse] at hr2
  have hr3 := List.mem_filter.mp hr2
  exact ⟨r, hr3.1, by simpa using hr3.2, hdec⟩

theorem mem_range_complete {α : Type} (dec : α → Option StoredBlock)
    (db : List (Row α)) (lo hi lim : Nat) (r : Row α) (b : StoredBlock)
    (hlen : (db.filter
      (fun q => decide (lo ≤ q.blockNumber ∧ q.blockNumber ≤ hi))).length ≤ lim)
    (hr : r ∈ db) (h1 : lo ≤ r.blockNumber) (h2 : r.blockNumber ≤ hi)
    (hdec : dec r.blockData = some b) :
    b ∈ get_blocks_range dec db lo hi lim := by
  unfold get_blocks_range
  apply List.mem_filterMap.mpr
  refine ⟨r, ?_, hdec⟩
  rw [List.take_of_length_le (by simpa using hlen)]
  rw [List.mem_reverse]
  exact List.mem_filter.mpr ⟨hr, by simp [h1, h2]⟩

theorem pairwise_num_filterMap {α : Type} (f : Row α → Option StoredBlock)
    (l : List (Row α))
    (hp : List.Pairwise (fun a b => b.blockNumber < a.blockNumber) l)
    (hf : ∀ r ∈ l, ∀ b, f r = some b → b.number = r.blockNumber) :
    List.Pairwise (fun a b => b.number < a.number) (l.filterMap f) := by
  induction l with
  | nil => simp
  | cons r l ih =>
    rw [List.filterMap_cons]
    have hl := List.pairwise_cons.mp hp
    have hrest : ∀ q ∈ l, ∀ b, f q = some b → b.number = q.blockNumber :=
      fun q hq => hf q (List.mem_cons_of_mem _ hq)
    cases hfr : f r with
    | none => exact ih hl.2 hrest
    | some x =>
      apply List.pairwise_cons.mpr
      refine ⟨?_, ih hl.2 hrest⟩
      intro y hy
      obtain ⟨q, hq, hdq⟩ := List.mem_filterMap.mp hy
      have hx := hf r (List.mem_cons_self _ _) x hfr
      have hyq := hrest q hq y hdq
      rw [hx, hyq]
      exact hl.1 q hq

theorem range_sorted {α : Type} (dec : α → Option StoredBlock)
    (db : List (Row α)) (lo hi lim : Nat)
    (hwf : List.Chain' (fun a b => a.blockNumber < b.blockNumber) db)
    (hdec : ∀ r ∈ db, ∀ b, dec r.blockData = some b → b.number = r.blockNumber) :
    List.Pairwise (fun a b => b.number < a.number)
      (get_blocks_range dec db lo hi lim) := by
  haveI : IsTrans (Row α) (fun a b => a.blockNumber < b.blockNumber) :=
    ⟨fun a b c h1 h2 => Nat.lt_trans h1 h2⟩
  have hpw : List.Pairwise (fun a b : Row α => a.blockNumber < b.blockNumber) db :=
    List.chain'_iff_pairwise.mp hwf
  have hfil := hpw.filter
    (fun q => decide (lo ≤ q.blockNumber ∧ q.blockNumber ≤ hi))
  have hrev : List.Pairwise (fun a b : Row α => b.blockNumber < a.blockNumber)
      ((db.filter
        (fun q => decide (lo ≤ q.blockNumber ∧ q.blockNumber ≤ hi))).reverse) :=
    List.pairwise_reverse.mpr hfil
  have htake := hrev.sublist (List.take_sublist lim _)
  apply pairwise_num_filterMap _ _ htake
  intro r hr b hb
  have hr2 := List.mem_of_mem_take hr
  rw [List.mem_reverse] at hr2
  exact hdec r (List.mem_filter.mp hr2).1 b hb

/-! Helper lemmas about the ingestion loop. -/

theorem processBlock_skip {α : Type} (enc : StoredBlock → α)
    (dec : α → Option StoredBlock) (evFs : List EventFilter)
    (exFs : List String) (st : IngestState α) (d : Delivery)
    (v : StoredBlock)
    (h : get_block dec st.db d.block.number = .ok (some v)) :
    processBlock enc dec evFs exFs st d = st := by
  simp [processBlock, h, dedupHit]

theorem processBlock_other_key {α : Type} (enc : StoredBlock → α)
    (dec : α → Option StoredBlock) (evFs : List EventFilter)
    (exFs : List String) (st : IngestState α) (d : Delivery) (n : Nat)
    (hd : d.block.number ≠ n) :
    lookupRow n (processBlock enc dec evFs exFs st d).db = lookupRow n st.db ∧
    countKey n (processBlock enc dec evFs exFs st d).db = countKey n st.db := by
  unfold processBlock
  by_cases hh : dedupHit (get_block dec st.db d.block.number) = true
  · simp [hh]
  · simp only [hh, if_false, Bool.false_eq_true]
    by_cases hw : d.writeOk
    · simp only [hw, if_true]
      exact ⟨lookupRow_insertRow_ne n _ _ (Ne.symm hd),
             countKey_insertRow_ne n _ _ (Ne.symm hd)⟩
    · simp [hw]

theorem processDeliveries_keep {α : Type} (enc : StoredBlock → α)
    (dec : α → Option StoredBlock) (evFs : List EventFilter)
    (exFs : List String) (n : Nat) (sb : StoredBlock)
    (hrt : dec (enc sb) = some sb) (ds : List Delivery) :
    ∀ st : IngestState α, lookupRow n st.db = some (rowOf enc sb) →
      countKey n st.db = 1 →
      lookupRow n (processDeliveries enc dec evFs exFs st ds).db
          = some (rowOf enc sb) ∧
      countKey n (processDeliveries enc dec evFs exFs st ds).db = 1 := by
  induction ds with
  | nil => intro st h1 h2; exact ⟨h1, h2⟩
  | cons d ds ih =>
    intro st h1 h2
    rw [processDeliveries]
    by_cases hd : d.block.number = n
    · have hget : get_block dec st.db d.block.number = .ok (some sb) := by
        rw [hd]
        simp [get_block, h1, rowOf, hrt]
      rw [processBlock_skip enc dec evFs exFs st d sb hget]
      exact ih st h1 h2
    · obtain ⟨hl, hc⟩ := processBlock_other_key enc dec evFs exFs st d n hd
      exact ih _ (hl.trans h1) (hc.trans h2)

theorem processDeliveries_first_success {α : Type} (enc : StoredBlock → α)
    (dec : α → Option StoredBlock) (evFs : List EventFilter)
    (exFs : List String) (hrt : ∀ b, dec (enc b) = some b) (n : Nat)
    (ds : List Delivery) :
    ∀ st : IngestState α, lookupRow n st.db = none →
      ∀ d, firstSuccess n ds = some d →
      lookupRow n (processDeliveries enc dec evFs exFs st ds).db
          = some (rowOf enc (projectStored evFs exFs d.block d.now)) ∧
      countKey n (processDeliveries enc dec evFs exFs st ds).db = 1 := by
  induction ds with
  | nil => intro st h d hfs; simp [firstSuccess] at hfs
  | cons e ds ih =>
    intro st hst d hfs
    rw [processDeliveries]
    by_cases hen : e.block.number = n
    · have hgetn : get_block dec st.db e.block.number = .ok none := by
        rw [hen]; simp [get_block, hst]
      by_cases hw : e.writeOk
      · -- e is the first successful delivery of n
        have hde : d = e := by
          simp [firstSuccess, List.find?, hen, hw] at hfs
          exact hfs.symm
        subst hde
        set sb := projectStored evFs exFs d.block d.now with hsb
        have hkey : (rowOf enc sb).blockNumber = n := by
          simpa [rowOf, hsb, projectStored] using hen
        have hdb : (processBlock enc dec evFs exFs st d).db
            = insertRow (rowOf enc sb) st.db := by
          simp [processBlock, hgetn, dedupHit, hw, store_block]
        have hcnt0 : countKey n st.db = 0 := (lookupRow_eq_none_iff n st.db).mp hst
        have hl1 : lookupRow n (insertRow (rowOf enc sb) st.db) = some (rowOf enc sb) := by
          have := lookupRow_insertRow_self (rowOf enc sb) st.db
          rwa [hkey] at this
        have hc1 : countKey n (insertRow (rowOf enc sb) st.db) = 1 := by
          have := countKey_insertRow_self (rowOf enc sb) st.db (by rwa [hkey])
          rwa [hkey] at this
        have := processDeliveries_keep enc dec evFs exFs n sb (hrt sb) ds
          (processBlock enc dec evFs exFs st d)
          (by rw [hdb]; exact hl1) (by rw [hdb]; exact hc1)
        exact this
      · -- delivery of n whose write fails: proceeds but leaves the table as is
        have hfs2 : firstSuccess n ds = some d := by
          simpa [firstSuccess, List.find?, hen, hw] using hfs
        have hdb : (processBlock enc dec evFs exFs st e).db = st.db := by
          simp [processBlock, hgetn, dedupHit, hw]
        exact ih _ (by rw [hdb]; exact hst) d hfs2
    · have hfs2 : firstSuccess n ds = some d := by
        simpa [firstSuccess, List.find?, hen] using hfs
      obtain ⟨hl, _⟩ := processBlock_other_key enc dec evFs exFs st e n hen
      exact ih _ (hl.trans hst) d hfs2

/-! The claims. -/

/-- C3: should_include_event scans the rule sequence in declaration
order and returns false exactly when some rule's pallet equals the
event's pallet and its method is none or equals the variant; a
pallet-matching rule with a different named method does not stop the
scan; if no rule excludes it returns true.  With rules
PalletA-with-no-method every PalletA event is excluded regardless of
variant, and with PalletA-method-X only PalletA/X is excluded while
PalletA/Y is included. -/
theorem should_include_event_spec :
    (∀ (fs : List EventFilter) (p v : String),
      should_include_event fs p v = false ↔
        ∃ f ∈ fs, f.pallet = p ∧ (f.method = none ∨ f.method = some v)) ∧
    (∀ (fs : List EventFilter) (p v m : String), m ≠ v →
      should_include_event (⟨p, some m⟩ :: fs) p v
        = should_include_event fs p v) ∧
    (∀ v : String,
      should_include_event [⟨"PalletA", none⟩] "PalletA" v = false) ∧
    should_include_event [⟨"PalletA", some "X"⟩] "PalletA" "X" = false ∧
    should_include_event [⟨"PalletA", some "X"⟩] "PalletA" "Y" = true := by
  refine ⟨should_include_event_false_iff, ?_, ?_, by decide, by decide⟩
  · intro fs p v m hmv
    simp [should_include_event, hmv]
  · intro v
    simp [should_include_event]

theorem should_include_event_spec_witness :
    (should_include_event [⟨"PalletA", some "X"⟩] "PalletA" "Y" = true) ∧
    should_include_event (⟨"P", some "a"⟩ :: []) "P" "b"
      = should_include_event [] "P" "b" ∧
    (should_include_event [⟨"PalletA", none⟩] "PalletA" "Anything" = false) ∧
    (should_include_event [⟨"Q", some "x"⟩] "Q" "x" = false ↔
      ∃ f ∈ [EventFilter.mk "Q" (some "x")], f.pallet = "Q" ∧
        (f.method = none ∨ f.method = some "x")) :=
  ⟨should_include_event_spec.2.2.2.2,
   should_include_event_spec.2.1 [] "P" "b" "a" (by decide),
   should_include_event_spec.2.2.1 "Anything",
   should_include_event_spec.1 [⟨"Q", some "x"⟩] "Q" "x"⟩

/-- C4: if an extrinsic's qualified action is excluded by the extrinsic
filter, projection omits that extrinsic and every one of its events
from the resulting record, none of those events contribute to the total
event count, and the remaining extrinsics keep their relative order
(the result is the concatenation of the projections of the surrounding
segments). -/
theorem extrinsic_exclusion_removes_events
    (evFs : List EventFilter) (exFs : List String)
    (front back : List RawExtrinsic) (ex : RawExtrinsic)
    (hex : should_include_extrinsic exFs (resolveAction ex.meta) = false) :
    projectBlock evFs exFs (front ++ ex :: back)
        = projectBlock evFs exFs front ++ projectBlock evFs exFs back ∧
    projectBlock evFs exFs (front ++ back)
        = projectBlock evFs exFs front ++ projectBlock evFs exFs back ∧
    totalEvents (projectBlock evFs exFs (front ++ ex :: back))
        = totalEvents (projectBlock evFs exFs (front ++ back)) := by
  have hnone : projectExtrinsic evFs exFs ex = none := by
    simp [projectExtrinsic, hex]
  refine ⟨?_, ?_, ?_⟩ <;>
    simp [projectBlock, List.filterMap_append, List.filterMap_cons, hnone]

theorem extrinsic_exclusion_removes_events_witness :
    should_include_extrinsic ["ParaInherent/enter"]
        (resolveAction exPara.meta) = false ∧
    projectBlock [] ["ParaInherent/enter"] ([exBal] ++ exPara :: [])
        = projectBlock [] ["ParaInherent/enter"] [exBal]
          ++ projectBlock [] ["ParaInherent/enter"] [] ∧
    totalEvents (projectBlock [] ["ParaInherent/enter"] ([exBal] ++ exPara :: []))
        = totalEvents (projectBlock [] ["ParaInherent/enter"] ([exBal] ++ [])) := by
  have h := extrinsic_exclusion_removes_events [] ["ParaInherent/enter"]
    [exBal] [] exPara (by decide)
  exact ⟨by decide, h.1, h.2.2⟩

/-- C5 counterexample: the extrinsic filter is plain string membership,
so the configured exclusion set containing the literal string unknown
excludes an unresolvable extrinsic — it does not always pass, and it is
dropped from the projection. -/
theorem unknown_action_excludable_cx :
    should_include_extrinsic ["unknown"] "unknown" = false ∧
    projectExtrinsic [] ["unknown"] exUnknown = none := by
  decide

/-- C5 amended: an extrinsic whose qualified-action resolution fails is
assigned the literal action unknown, is still processed rather than
dropped, and passes the extrinsic filter for every exclusion set that
does not contain the literal string unknown — in particular every set
of qualified Pallet/Method names such as the repository's configured
one. -/
theorem unknown_action_passes (evFs : List EventFilter)
    (exFs : List String) (hA : "unknown" ∉ exFs) (ix : Nat)
    (hsh : String) (fv : Option String) (evts : List (Option RawEvent)) :
    resolveAction none = "unknown" ∧
    should_include_extrinsic exFs "unknown" = true ∧
    projectExtrinsic evFs exFs ⟨ix, hsh, none, fv, evts⟩
        = some ⟨ix, hsh, "unknown", fv.getD "", projectEvents evFs evts⟩ := by
  have h2 : should_include_extrinsic exFs "unknown" = true :=
    (should_include_extrinsic_true_iff exFs "unknown").mpr hA
  exact ⟨rfl, h2, by simp [projectExtrinsic, resolveAction, h2]⟩

theorem unknown_action_passes_witness :
    resolveAction none = "unknown" ∧
    should_include_extrinsic ["ParaInherent/enter"] "unknown" = true ∧
    projectExtrinsic [] ["ParaInherent/enter"] ⟨2, "0xe2", none, none, []⟩
        = some ⟨2, "0xe2", "unknown", "", projectEvents [] []⟩ :=
  unknown_action_passes [] ["ParaInherent/enter"] (by decide) 2 "0xe2" none []

/-- C10: an event that fails to decode from the extrinsic's event
stream is silently omitted during projection — no placeholder record is
substituted, the projected event list (hence events_count) is the same
as if the undecodable entry were absent, and the extrinsic's record is
otherwise unchanged. -/
theorem undecodable_event_omitted (evFs : List EventFilter)
    (exFs : List String) (front back : List (Option RawEvent))
    (ix : Nat) (hsh : String) (meta : Option (String × String))
    (fv : Option String) :
    projectEvents evFs (front ++ none :: back)
        = projectEvents evFs (front ++ back) ∧
    projectExtrinsic evFs exFs ⟨ix, hsh, meta, fv, front ++ none :: back⟩
        = projectExtrinsic evFs exFs ⟨ix, hsh, meta, fv, front ++ back⟩ := by
  have h1 : projectEvents evFs (front ++ none :: back)
      = projectEvents evFs (front ++ back) := by
    simp [projectEvents, List.filterMap_append, List.filterMap_cons]
  exact ⟨h1, by simp [projectExtrinsic, h1]⟩

/-- C6: upsert is idempotent — storing the same record twice leaves
the same table state as storing it once, a point lookup then returns
that record, the maximum key is unaffected by the second write, and the
row under that key holds the new record. -/
theorem store_block_idempotent {α : Type} (enc : StoredBlock → α)
    (dec : α → Option StoredBlock) (db : List (Row α)) (b : StoredBlock)
    (hrt : dec (enc b) = some b) :
    store_block enc (store_block enc db b) b = store_block enc db b ∧
    get_block dec (store_block enc db b) b.number = .ok (some b) ∧
    get_latest_block_number (store_block enc (store_block enc db b) b)
        = get_latest_block_number (store_block enc db b) ∧
    lookupRow b.number (store_block enc db b) = some (rowOf enc b) := by
  have h1 : store_block enc (store_block enc db b) b = store_block enc db b :=
    insertRow_idem (rowOf enc b) db
  have h4 : lookupRow b.number (store_block enc db b) = some (rowOf enc b) :=
    lookupRow_insertRow_self (rowOf enc b) db
  refine ⟨h1, ?_, by rw [h1], h4⟩
  simp [get_block, h4, rowOf, hrt]

theorem store_block_idempotent_witness :
    store_block (fun b => b) (store_block (fun b => b) db10 (mkStored 3))
        (mkStored 3) = store_block (fun b => b) db10 (mkStored 3) ∧
    get_block some (store_block (fun b => b) db10 (mkStored 3))
        (mkStored 3).number = .ok (some (mkStored 3)) ∧
    lookupRow (mkStored 3).number (store_block (fun b => b) db10 (mkStored 3))
        = some (rowOf (fun b => b) (mkStored 3)) := by
  have h := store_block_idempotent (fun b => b) some db10 (mkStored 3) rfl
  exact ⟨h.1, h.2.1, h.2.2.2⟩

/-- C7: on a table whose keys are strictly ascending (every table
reachable by store_block) and whose decodable rows carry their own key
as number, the range scan returns exactly the stored records with key
in the closed interval, in strictly descending key order, truncated to
at most limit entries; in particular with blocks 10 through 20 stored,
the scan from 12 to 18 limited to 3 returns the records 18, 17, 16. -/
theorem get_blocks_range_spec {α : Type} (dec : α → Option StoredBlock)
    (db : List (Row α)) (lo hi lim : Nat)
    (hwf : List.Chain' (fun a b => a.blockNumber < b.blockNumber) db)
    (hdec : ∀ r ∈ db, ∀ b, dec r.blockData = some b → b.number = r.blockNumber) :
    (get_blocks_range dec db lo hi lim).length ≤ lim ∧
    List.Pairwise (fun a b => b.number < a.number)
      (get_blocks_range dec db lo hi lim) ∧
    (∀ b ∈ get_blocks_range dec db lo hi lim,
      (lo ≤ b.number ∧ b.number ≤ hi) ∧
      ∃ r ∈ db, r.blockNumber = b.number ∧ dec r.blockData = some b) ∧
    ((db.filter
        (fun q => decide (lo ≤ q.blockNumber ∧ q.blockNumber ≤ hi))).length
          ≤ lim →
      ∀ r ∈ db, lo ≤ r.blockNumber → r.blockNumber ≤ hi →
        ∀ b, dec r.blockData = some b →
          b ∈ get_blocks_range dec db lo hi lim) ∧
    get_blocks_range (fun b => some b) db10 12 18 3
        = [mkStored 18, mkStored 17, mkStored 16] := by
  refine ⟨range_length_le dec db lo hi lim,
          range_sorted dec db lo hi lim hwf hdec, ?_, ?_, by decide⟩
  · intro b hb
    obtain ⟨r, hr, hrange, hdecb⟩ := mem_range_sound dec db lo hi lim b hb
    have hn := hdec r hr b hdecb
    exact ⟨by rw [hn]; exact hrange, ⟨r, hr, hn.symm, hdecb⟩⟩
  · intro hlen r hr h1 h2 b hb
    exact mem_range_complete dec db lo hi lim r b hlen hr h1 h2 hb

theorem get_blocks_range_spec_witness :
    (get_blocks_range (fun b => some b) db10 12 18 3).length ≤ 3 ∧
    get_blocks_range (fun b => some b) db10 12 18 3
        = [mkStored 18, mkStored 17, mkStored 16] := by
  have hwf : List.Chain'
      (fun a b : Row StoredBlock => a.blockNumber < b.blockNumber) db10 :=
    chain'_of_sortedKeys db10 (by decide)
  have hall : ∀ r ∈ db10, (Row.blockData r).number = r.blockNumber := by decide
  have hdec : ∀ r ∈ db10, ∀ b, (fun b => some b) r.blockData = some b →
      b.number = r.blockNumber := by
    intro r hr b hb
    have hbb : r.blockData = b := by simpa using hb
    rw [← hbb]
    exact hall r hr
  have h := get_blocks_range_spec (fun b => some b) db10 12 18 3 hwf hdec
  exact ⟨h.1, h.2.2.2.2⟩

/-- C8: a stored record that fails to deserialize is handled
asymmetrically — get_block returns an error for that key (never none,
never a default), while the range scan yields only decodable records
(the undecodable row contributes nothing) and still returns every other
decodable record in the requested range when the limit allows. -/
theorem corrupt_row_read_paths {α : Type} (dec : α → Option StoredBlock)
    (db : List (Row α)) (k : Nat) (r : Row α)
    (hlk : lookupRow k db = some r) (hbad : dec r.blockData = none) :
    get_block dec db k = .error .decodeFailure ∧
    (∀ lo hi lim b, b ∈ get_blocks_range dec db lo hi lim →
      ∃ q ∈ db, dec q.blockData = some b) ∧
    (∀ lo hi lim,
      (db.filter
        (fun q => decide (lo ≤ q.blockNumber ∧ q.blockNumber ≤ hi))).length
          ≤ lim →
      ∀ q ∈ db, lo ≤ q.blockNumber → q.blockNumber ≤ hi →
        ∀ b, dec q.blockData = some b →
          b ∈ get_blocks_range dec db lo hi lim) := by
  refine ⟨by simp [get_block, hlk, hbad], ?_, ?_⟩
  · intro lo hi lim b hb
    obtain ⟨q, hq, _, hdq⟩ := mem_range_sound dec db lo hi lim b hb
    exact ⟨q, hq, hdq⟩
  · intro lo hi lim hlen q hq h1 h2 b hb
    exact mem_range_complete dec db lo hi lim q b hlen hq h1 h2 hb

theorem corrupt_row_read_paths_witness :
    get_block (fun x => x) badDb 6 = .error .decodeFailure ∧
    mkStored 5 ∈ get_blocks_range (fun x => x) badDb 5 7 10 ∧
    mkStored 7 ∈ get_blocks_range (fun x => x) badDb 5 7 10 ∧
    get_blocks_range (fun x => x) badDb 5 7 10
        = [mkStored 7, mkStored 5] := by
  have h := corrupt_row_read_paths (fun x => x) badDb 6
    ⟨6, "0x6", none, 0⟩ (by decide) rfl
  refine ⟨h.1, ?_, ?_, by decide⟩
  · exact h.2.2 5 7 10 (by decide) ⟨5, "0x5", some (mkStored 5), 0⟩
      (by decide) (by decide) (by decide) (mkStored 5) rfl
  · exact h.2.2 5 7 10 (by decide) ⟨7, "0x7", some (mkStored 7), 0⟩
      (by decide) (by decide) (by decide) (mkStored 7) rfl

/-- C9: when the dedup existence check answers with an error rather
than an answer, ingestion treats the block as not present, projects it
and (the write succeeding) stores it — the block is not silently
dropped, and afterwards the lookup returns the freshly projected
record. -/
theorem dedup_read_failure_proceeds {α : Type} (enc : StoredBlock → α)
    (dec : α → Option StoredBlock) (evFs : List EventFilter)
    (exFs : List String) (st : IngestState α) (b : RawBlock) (now : Int)
    (e : DbError) (herr : get_block dec st.db b.number = .error e)
    (hrt : dec (enc (projectStored evFs exFs b now))
        = some (projectStored evFs exFs b now)) :
    (processBlock enc dec evFs exFs st ⟨b, true, now⟩).db
        = insertRow (rowOf enc (projectStored evFs exFs b now)) st.db ∧
    get_block dec (processBlock enc dec evFs exFs st ⟨b, true, now⟩).db
        b.number = .ok (some (projectStored evFs exFs b now)) := by
  have hmiss : dedupHit (get_block dec st.db b.number) = false := by
    rw [herr]; rfl
  have hdb : (processBlock enc dec evFs exFs st ⟨b, true, now⟩).db
      = insertRow (rowOf enc (projectStored evFs exFs b now)) st.db := by
    simp [processBlock, hmiss, store_block]
  refine ⟨hdb, ?_⟩
  rw [hdb]
  have hl : lookupRow b.number
      (insertRow (rowOf enc (projectStored evFs exFs b now)) st.db)
      = some (rowOf enc (projectStored evFs exFs b now)) :=
    lookupRow_insertRow_self (rowOf enc (projectStored evFs exFs b now)) st.db
  simp only [get_block, hl]
  simp [rowOf, hrt]

theorem dedup_read_failure_proceeds_witness :
    get_block (fun x => x) badDb1 rb5b.number = .error .decodeFailure ∧
    get_block (fun x => x)
      (processBlock some (fun x => x) [] [] ⟨badDb1, initialBlockInfo⟩
        ⟨rb5b, true, 7⟩).db rb5b.number
      = .ok (some (projectStored [] [] rb5b 7)) := by
  have h := dedup_read_failure_proceeds some (fun x => x) [] []
    ⟨badDb1, initialBlockInfo⟩ rb5b 7 .decodeFailure rfl rfl
  exact ⟨rfl, h.2⟩

/-- C2 counterexample: with an empty store, a non-duplicate block
numbered 7 whose durable write fails leaves the store unchanged yet
replaces the shared view, which afterwards describes block 7 instead of
the previously ingested one — refuting that the view is replaced only
upon a successful write. -/
theorem view_updated_despite_write_failure_cx :
    (processBlock (fun b => b) some [] [] st0 ⟨rb7, false, 42⟩).db = st0.db ∧
    (processBlock (fun b => b) some [] [] st0 ⟨rb7, false, 42⟩).view.number = 7 ∧
    st0.view.number = 0 := by
  refine ⟨rfl, rfl, rfl⟩

/-- C2 corrected: for every non-duplicate incoming block the shared
view is replaced unconditionally, before and independently of the
durable write: on a failed upsert the store is unchanged (the block
stays absent) while the view already describes the failed block, and
ingestion continues with the next delivery; on a successful upsert the
view is the same and the record is stored. -/
theorem view_update_precedes_write {α : Type} (enc : StoredBlock → α)
    (dec : α → Option StoredBlock) (evFs : List EventFilter)
    (exFs : List String) (st : IngestState α) (b : RawBlock) (now : Int)
    (hmiss : dedupHit (get_block dec st.db b.number) = false) :
    (processBlock enc dec evFs exFs st ⟨b, false, now⟩).view
        = viewOf evFs exFs b ∧
    (processBlock enc dec evFs exFs st ⟨b, false, now⟩).db = st.db ∧
    (processBlock enc dec evFs exFs st ⟨b, true, now⟩).view
        = viewOf evFs exFs b ∧
    (processBlock enc dec evFs exFs st ⟨b, true, now⟩).db
        = store_block enc st.db (projectStored evFs exFs b now) ∧
    (∀ ds : List Delivery,
      processDeliveries enc dec evFs exFs st (⟨b, false, now⟩ :: ds)
        = processDeliveries enc dec evFs exFs
            (processBlock enc dec evFs exFs st ⟨b, false, now⟩) ds) := by
  refine ⟨?_, ?_, ?_, ?_, fun ds => rfl⟩ <;> simp [processBlock, hmiss]

theorem view_update_precedes_write_witness :
    (processBlock (fun b => b) some [] [] st0 ⟨rb7, false, 42⟩).view
        = viewOf [] [] rb7 ∧
    (processBlock (fun b => b) some [] [] st0 ⟨rb7, false, 42⟩).db = st0.db := by
  have h := view_update_precedes_write (fun b => b) some [] [] st0 rb7 42 rfl
  exact ⟨h.1, h.2.1⟩

/-- C1: starting from an empty store, for every block number n and
every delivery sequence, if some delivery of n has a succeeding write
then the final store holds exactly one row for n, whose record is the
projection (with its ingestion timestamp) of the first delivery of n
whose write succeeded; and a delivery whose number is already present
in the store is skipped with no state change at all. -/
theorem dedup_first_success_wins {α : Type} (enc : StoredBlock → α)
    (dec : α → Option StoredBlock) (evFs : List EventFilter)
    (exFs : List String) (hrt : ∀ b, dec (enc b) = some b) (n : Nat)
    (ds : List Delivery) (d : Delivery)
    (hfs : firstSuccess n ds = some d) :
    countKey n
        (processDeliveries enc dec evFs exFs ⟨[], initialBlockInfo⟩ ds).db
      = 1 ∧
    get_block dec
        (processDeliveries enc dec evFs exFs ⟨[], initialBlockInfo⟩ ds).db n
      = .ok (some (projectStored evFs exFs d.block d.now)) ∧
    (∀ (st : IngestState α) (d2 : Delivery) (v : StoredBlock),
      get_block dec st.db d2.block.number = .ok (some v) →
      processBlock enc dec evFs exFs st d2 = st) := by
  have h := processDeliveries_first_success enc dec evFs exFs hrt n ds
    ⟨[], initialBlockInfo⟩ rfl d hfs
  refine ⟨h.2, ?_, processBlock_skip enc dec evFs exFs⟩
  simp [get_block, h.1, rowOf, hrt]

theorem dedup_first_success_wins_witness :
    firstSuccess 5 [dA, dB] = some dA ∧
    countKey 5 (processDeliveries (fun b => b) some [] []
        ⟨[], initialBlockInfo⟩ [dA, dB]).db = 1 ∧
    get_block some (processDeliveries (fun b => b) some [] []
        ⟨[], initialBlockInfo⟩ [dA, dB]).db 5
      = .ok (some (projectStored [] [] dA.block dA.now)) := by
  have h := dedup_first_success_wins (fun b => b) some [] []
    (fun b => rfl) 5 [dA, dB] dA (by decide)
  exact ⟨by decide, h.1, h.2.1⟩

end Smolcar
